import Mathlib

/-!
Verification of the MySQL → BigQuery incremental syncer.

Shallow embedding of the repository's core (src/etl): the watermark store
(state.py), the extractor's pagination primitives (extract.py), the
orchestrator's pagination/watermark logic (main.py), the row transformer
(transform.py), the loader (load.py) and the per-mapping run report
(report.py).  Python dicts are modelled as association lists preserving
insertion order (Python dict semantics); scalar values are modelled by the
inductive `Value`; machine floats (report durations) are irrelevant to every
claim and are omitted.
-/

namespace EtlSpec

/-- A scalar cell value as it appears in an extracted row: SQL NULL / Python
`None` is `vNull`; strings and integers cover the values the claims touch. -/
inductive Value where
  | vNull : Value
  | vStr : String → Value
  | vInt : Int → Value
  deriving DecidableEq, Inhabited

/-- A row, as produced by `mysql.connector`'s dictionary cursor: a Python
dict from column name to value, modelled as an insertion-ordered
association list. -/
abbrev Row := List (String × Value)

/-- Python `r.get(c)` on a dict row, with the convention of
`transform.align_columns` that a missing key yields `None` (`vNull`);
returns the value of the first entry whose key is `c`. -/
def rowGet (r : Row) (c : String) : Value :=
  match r.find? (fun e => e.1 = c) with
  | some e => e.2
  | none => Value.vNull

/-- The key list of a row, in insertion order. -/
def rowKeys (r : Row) : List String := r.map Prod.fst

/-- The function `transform.align_columns`: every row is rewritten to
`{c: r.get(c) for c in columns}` — exactly the canonical columns, in
canonical order, with missing fields filled by `None` and extra fields
dropped.  (The Python early-returns `[]` on empty input, which coincides
with mapping over the empty list.) -/
def align_columns (records : List Row) (columns : List String) : List Row :=
  records.map (fun r => columns.map (fun c => (c, rowGet r c)))

/-! ## Python dict primitives

Python dicts hold each key at most once, in insertion order; `d[k] = v`
replaces the value in place when `k` is present and appends otherwise.
We model them as association lists with those operations. -/

/-- Dict lookup `d.get(k)` / `d[k]`: first (and, for well-formed dicts,
only) entry with key `k`. -/
def dictGet {α : Type} (d : List (String × α)) (k : String) : Option α :=
  match d.find? (fun e => e.1 = k) with
  | some e => some e.2
  | none => none

/-- Dict assignment `d[k] = v`: replace in place if the key exists,
append otherwise. -/
def dictSet {α : Type} : List (String × α) → String → α → List (String × α)
  | [], k, v => [(k, v)]
  | (k', v') :: rest, k, v =>
      if k' = k then (k, v) :: rest else (k', v') :: dictSet rest k v

/-! ## Watermark store document (state.py)

The persisted state is the JSON document loaded by `StateStore.load` and
written back whole by `StateStore.save`; `set_last_sync` is a full
read-modify-write of that document. -/

/-- A JSON value as produced by `json.load`, restricted to the shapes the
state document can hold. -/
inductive JVal where
  | jNull : JVal
  | jStr : String → JVal
  | jNum : Int → JVal
  | jObj : List (String × JVal) → JVal
  deriving Inhabited

/-- The state document: a JSON object, top-level keys to JSON values. -/
abbrev Doc := List (String × JVal)

/-- The function `StateStore.set_last_sync(name, value)` as a pure function from the
document read by `load()` to the document passed to `save(...)`:
ensure a `last_sync` object exists, set its `name` entry, write the whole
document back.  Returns `none` when the stored `last_sync` value is not an
object (Python would raise a `TypeError` before saving). -/
def setLastSyncDoc (doc : Doc) (name value : String) : Option Doc :=
  match dictGet doc "last_sync" with
  | none =>
      some (dictSet doc "last_sync" (JVal.jObj [(name, JVal.jStr value)]))
  | some (JVal.jObj o) =>
      some (dictSet doc "last_sync" (JVal.jObj (dictSet o name (JVal.jStr value))))
  | some _ => none

/-- The function `StateStore.get_last_sync(name)` over the document model:
`data.get("last_sync", {}).get(name)`. -/
def getLastSyncDoc (doc : Doc) (name : String) : Option JVal :=
  match dictGet doc "last_sync" with
  | some (JVal.jObj o) => dictGet o name
  | _ => none

/-- A sample state document: one unrelated top-level key, one other
mapping's watermark. -/
def docW9 : Doc :=
  [("version", JVal.jNum 1),
   ("last_sync", JVal.jObj [("m1", JVal.jStr "2020-05-05")])]

/-- The document written back by `set_last_sync("m2", "2024-01-02")` on
`docW9`. -/
def docW9set : Doc := (setLastSyncDoc docW9 "m2" "2024-01-02").getD []

/-! ## Extractor (extract.py)

`MySQLExtractor.fetch_incremental` issues
`SELECT ... WHERE inc {op} %s [AND inc {lt_op} %s] ORDER BY inc ASC LIMIT n`.
A source table is modelled by the list of its rows' incremental-column
values in ascending column order (the `ORDER BY` of every query; the
claims that use this model supply the ascending-and-distinct hypothesis as
`List.Sorted (· < ·)`), so the query is a filter followed by `LIMIT`. -/

/-- The rows returned by one `fetch_incremental` query: keep the rows inside
the window and truncate to `batchSize` (`LIMIT`).  `inclusive` is the
Python `operator == ">="` case, which pairs the upper bound `<=`; the
default `operator == ">"` pairs `<`. -/
def fetchRows (src : List Int) (startValue : Int) (endValue : Option Int)
    (batchSize : Nat) (inclusive : Bool) : List Int :=
  (src.filter (fun v =>
    (if inclusive then decide (startValue ≤ v) else decide (startValue < v)) &&
    (match endValue with
     | none => true
     | some e => if inclusive then decide (v ≤ e) else decide (v < e)))).take
    batchSize

/-- The method `MySQLExtractor.fetch_incremental` with its operator validation:
raises `ValueError` (modelled by `Except.error`) unless the operator is
`>` or `>=`. -/
def fetch_incremental (src : List Int) (startValue : Int)
    (endValue : Option Int) (batchSize : Nat) (operator : String) :
    Except String (List Int) :=
  if operator = ">" ∨ operator = ">=" then
    Except.ok (fetchRows src startValue endValue batchSize (operator = ">="))
  else
    Except.error "operator must be > or >="

/-- The orchestrator's pagination loop (`main._run_mapping` lines 74–90):
fetch a page with `>=` on the first iteration (`all_records` still empty)
and `>` against the last row of the previous page afterwards; stop on an
empty page; accumulate everything.  `fuel` bounds the iteration count of
the Python `while True`. -/
def paginateLoop (src : List Int) (batchSize : Nat) :
    Nat → Int → Bool → List Int
  | 0, _, _ => []
  | fuel + 1, nextStart, isFirst =>
    let batch := fetchRows src nextStart none batchSize isFirst
    match batch.getLast? with
    | none => []
    | some last => batch ++ paginateLoop src batchSize fuel last false

/-- The list `all_records` accumulated by `_run_mapping`'s pagination loop, with
enough fuel for any source (each iteration either stops or strictly
shrinks the remaining window). -/
def fetchAllRecords (src : List Int) (watermark : Int) (batchSize : Nat) :
    List Int :=
  paginateLoop src batchSize (src.length + 1) watermark true

/-! ## Backfill (main.backfill) -/

/-- The extraction step of `main.backfill`: a single `fetch_incremental` call with
`start_value = --start`, `end_value = --end`, `batch_size = 100000` and no
`operator` argument, so the Python default `operator=">"` applies.  An
`Except.error` (impossible here: the operator is valid) is mapped to no
rows. -/
def backfillRecords (src : List Int) (start : Int) (endv : Option Int) :
    List Int :=
  match fetch_incremental src start endv 100000 ">" with
  | Except.ok rows => rows
  | Except.error _ => []

/-! ## Orchestrator watermark handling (main._run_mapping / run_once)

The per-mapping watermark table (`{"last_sync": {...}}` seen through
`StateStore`) at the value level: mapping name → incremental watermark.
The Python persists `str(max_val)` and the comparison happens on the
source side against the column's value, so the model carries the ordered
underlying value. -/

abbrev WStore := List (String × Int)

/-- The function `main._run_mapping` reduced to the state it reads and writes: compute
the lower bound from the stored watermark (falling back to
`backfill_start` / the epoch default, the `fallback` argument), run the
pagination loop, attempt the load — `loadOk` says whether
`load_append`/`load_upsert` succeeds or raises — and only after a
successful load, and only when rows were fetched, write the new watermark
`all_records[-1][incremental_column]` for this mapping.  Returns the
watermark store visible to the next run, and whether this run succeeded. -/
def runMapping (src : List Int) (store : WStore) (name : String)
    (fallback : Int) (loadOk : Bool) : WStore × Bool :=
  match loadOk,
      (fetchAllRecords src ((dictGet store name).getD fallback)
        10000).getLast? with
  | false, _ => (store, false)
  | true, none => (store, true)
  | true, some v => (dictSet store name v, true)

/-- The watermark store after a sequence of successful runs of one
mapping, each against a (possibly grown) source table. -/
def runSeq (name : String) (fallback : Int) (store : WStore)
    (runs : List (List Int)) : WStore :=
  runs.foldl (fun st src => (runMapping src st name fallback true).1) store

/-- The effective stored watermark for a mapping: the stored entry, or
the run's fallback lower bound when none is stored yet. -/
def storedWatermark (store : WStore) (name : String) (fallback : Int) : Int :=
  (dictGet store name).getD fallback

/-! ## Extractor retry policy (extract.py, tenacity decorators)

Both `fetch_columns` and `fetch_incremental` carry
`@retry(reraise=True, wait=wait_exponential(...), stop=stop_after_attempt(5),
retry=retry_if_exception_type(Error))`.  In `mysql-connector-python`,
`mysql.connector.Error` is the BASE class of every driver error:
connection resets and timeouts (`OperationalError`/`InterfaceError`) but
also bad-query and access-denied errors (`ProgrammingError`) are its
subclasses, so `retry_if_exception_type(Error)` retries all of them.
Only exceptions outside the driver hierarchy (e.g. the `ValueError`
raised for an invalid operator) escape the retry predicate. -/

/-- The exception classes relevant to the extractor calls. -/
inductive PyErr where
  | connectionReset
  | timeout
  | badQuery
  | authFailure
  | valueErr : String → PyErr
  deriving DecidableEq

/-- The check `isinstance(e, mysql.connector.Error)` — the tenacity retry
predicate `retry_if_exception_type(Error)`: true for every driver error
class, bad query and auth failure included; false for `ValueError`. -/
def isMySQLError : PyErr → Bool
  | PyErr.valueErr _ => false
  | _ => true

/-- A tenacity-decorated call with `stop_after_attempt(cap)` and
`reraise=True`.  `call i` is the outcome of the `(i+1)`-th underlying
attempt; the result is the number of attempts actually made together with
the final outcome.  On the last allowed attempt the attempt's own outcome
is returned (with `reraise=True` the original error is re-raised, never
wrapped); earlier attempts retry exactly when `retryOn` accepts the
raised error.  The `wait_exponential` sleeps between attempts are
real-time behaviour that does not influence the outcome and are not
modelled. -/
def tenacityRetry {α : Type} (retryOn : PyErr → Bool)
    (call : Nat → Except PyErr α) : Nat → Nat → Nat × Except PyErr α
  | 0, i => (i, call i)
  | 1, i => (i + 1, call i)
  | n + 2, i =>
      match call i with
      | Except.ok a => (i + 1, Except.ok a)
      | Except.error e =>
          if retryOn e then tenacityRetry retryOn call (n + 1) (i + 1)
          else (i + 1, Except.error e)

/-- An extractor fetch (`fetch_columns` or `fetch_incremental`) as
decorated in the source: retry on `mysql.connector.Error`, at most 5
attempts, re-raise the original error. -/
def fetchWithRetry {α : Type} (call : Nat → Except PyErr α) :
    Nat × Except PyErr α :=
  tenacityRetry isMySQLError call 5 0

/-! ## Multi-mapping run (main.run_once, report.py)

`run_once` iterates the configured mappings; `_run_mapping` either returns
a `RunReport` or raises.  The loop body is
`try: reports.append(_run_mapping(...)) except Exception: logger.exception(...)`
— the exception is logged and nothing else happens. -/

/-- The dataclass `report.RunReport` (the float `duration_seconds` carries no
claim-relevant information and is omitted). -/
structure RunReportR where
  mapping_name : String
  mode : String
  records_processed : Nat
  errors : List String
  deriving DecidableEq

/-- The mapping loop of `main.run_once` over the per-mapping outcomes
(`Except.ok` = `_run_mapping` returned a report, `Except.error` =
it raised): append the report on success, only log on failure. -/
def run_once (results : List (Except String RunReportR)) : List RunReportR :=
  results.foldl
    (fun reports r =>
      match r with
      | Except.ok rep => reports ++ [rep]
      | Except.error _ => reports)
    []

/-! ## Loader (load.py)

`BigQueryLoader.load_upsert` manipulates dataset state (which tables exist
and their rows) through the BigQuery client; the dataset is modelled as an
association list from table name to row list.  The MERGE statement itself
executes on BigQuery, outside this repository, and is modelled from the
spec (see `mergeRows`). -/

/-- The dataset: table name → rows of that table. -/
abbrev BQTables := List (String × List Row)

/-- Python `client.delete_table(ref, not_found_ok=True)`: drop the entry if
present, no-op otherwise. -/
def removeTable (tb : BQTables) (name : String) : BQTables :=
  tb.filter (fun e => !(decide (e.1 = name)))

/-- The method `ensure_table`: create an empty table unless it already exists. -/
def ensureTable (tb : BQTables) (name : String) : BQTables :=
  match dictGet tb name with
  | some _ => tb
  | none => dictSet tb name []

/-- The staging-table name `f"_{table}_staging_{os.getpid()}"`. -/
def stagingName (table : String) (pid : Nat) : String :=
  "_" ++ table ++ "_staging_" ++ toString pid

/-- The projection of a row onto the primary-key columns (the values the
MERGE `ON` clause compares). -/
def pkProj (pks : List String) (r : Row) : List Value :=
  pks.map (rowGet r)

/-- The clause `WHEN MATCHED THEN UPDATE SET c = S.c` for every non-key column `c`:
the target row keeps its key columns and takes every other column's value
from the matching staging row.  (The source computes the non-key set from
the batch's first row; under the column alignment the pipeline guarantees,
that is every non-key column of the target row, as used here.) -/
def updateRow (pks : List String) (t s : Row) : Row :=
  t.map (fun e => (e.1, if e.1 ∈ pks then e.2 else rowGet s e.1))

/-- Modelled from the spec: the BigQuery `MERGE` statement that
`load_upsert` builds and submits executes inside BigQuery, outside this
repository's code.  Per the spec: rows whose primary-key columns match an
existing destination row update all non-key columns; rows with no match
are inserted in full.  A matched target row takes its values from the
first staging row with the same key projection (unique when staging keys
are pairwise distinct; BigQuery aborts the statement otherwise). -/
def mergeRows (pks : List String) (target staging : List Row) : List Row :=
  (target.map (fun t =>
    match staging.find? (fun s => decide (pkProj pks s = pkProj pks t)) with
    | some s => updateRow pks t s
    | none => t))
  ++ staging.filter
      (fun s => !(target.any (fun t => decide (pkProj pks t = pkProj pks s))))

/-- The method `BigQueryLoader.load_upsert` step by step: empty input returns 0
immediately; otherwise ensure the destination table, drop and re-create
the staging table, bulk-load the batch into it (`WRITE_TRUNCATE`), run the
merge (`mergeOk` says whether the merge job succeeds or raises), and —
only after a successful merge, as in the source — delete the staging
table.  Returns the dataset state and the loader's outcome. -/
def load_upsert (tb : BQTables) (table : String) (rows : List Row)
    (pks : List String) (pid : Nat) (mergeOk : Bool) :
    BQTables × Except String Nat :=
  if rows.isEmpty then (tb, Except.ok 0)
  else
    let t1 := ensureTable tb table
    let staging := stagingName table pid
    let t2 := removeTable t1 staging
    let t3 := dictSet t2 staging []
    let t4 := dictSet t3 staging rows
    if mergeOk then
      let target := (dictGet t4 table).getD []
      let merged := mergeRows pks target rows
      let t5 := dictSet t4 table merged
      let t6 := removeTable t5 staging
      (t6, Except.ok rows.length)
    else (t4, Except.error "merge failed")

/-- The destination table contents after loading the same batch twice
through successful `load_upsert` calls. -/
def upsertTwice (tb : BQTables) (table : String) (rows : List Row)
    (pks : List String) (pid : Nat) : List Row :=
  (dictGet ((load_upsert ((load_upsert tb table rows pks pid true).1)
      table rows pks pid true).1) table).getD []

@[simp] theorem rowGet_nil (c : String) : rowGet [] c = Value.vNull := rfl

theorem rowGet_cons (k : String) (v : Value) (r : Row) (c : String) :
    rowGet ((k, v) :: r) c = if k = c then v else rowGet r c := by
  by_cases h : k = c <;> simp [rowGet, List.find?, h]

/-- Looking a canonical column up in an aligned row recovers the original
row's value for that column (the first matching entry of the aligned row was
built from `rowGet r c`). -/
theorem rowGet_alignRow_mem (r : Row) (columns : List String) (c : String)
    (hc : c ∈ columns) :
    rowGet (columns.map (fun c' => (c', rowGet r c'))) c = rowGet r c := by
  induction columns with
  | nil => cases hc
  | cons d rest ih =>
      rw [List.map_cons, rowGet_cons]
      by_cases hdc : d = c
      · simp [hdc]
      · have : c ∈ rest := by
          cases hc with
          | head => exact absurd rfl hdc
          | tail _ h => exact h
        simp [hdc, ih this]

/-- Looking up a column outside the canonical list in an aligned row gives
`vNull` (the key is simply absent). -/
theorem rowGet_alignRow_not_mem (r : Row) (columns : List String) (c : String)
    (hc : c ∉ columns) :
    rowGet (columns.map (fun c' => (c', rowGet r c'))) c = Value.vNull := by
  induction columns with
  | nil => rfl
  | cons d rest ih =>
      rw [List.map_cons, rowGet_cons]
      have hdc : d ≠ c := fun h => hc (h ▸ List.mem_cons_self d rest)
      have : c ∉ rest := fun h => hc (List.mem_cons_of_mem d h)
      simp [hdc, ih this]

/-- C8. `align_columns` output rows have key list exactly the canonical
column list in canonical order; canonical columns keep the input row's
value (absent ones being `vNull` by `rowGet`'s missing-key convention); and
non-canonical keys are dropped (their lookup yields `vNull`). -/
theorem align_columns_spec (records : List Row) (columns : List String)
    (i : Nat) (hi : i < records.length) :
    rowKeys ((align_columns records columns).getD i []) = columns ∧
    (∀ c ∈ columns,
      rowGet ((align_columns records columns).getD i []) c
        = rowGet (records.getD i []) c) ∧
    (∀ c, c ∉ columns →
      rowGet ((align_columns records columns).getD i []) c = Value.vNull) := by
  have hlen : i < (align_columns records columns).length := by
    simpa [align_columns] using hi
  have hrow : (align_columns records columns).getD i []
      = columns.map (fun c => (c, rowGet (records.getD i []) c)) := by
    rw [List.getD_eq_getElem?_getD, align_columns, List.getElem?_map]
    rw [List.getElem?_eq_getElem hi]
    simp [List.getD_eq_getElem?_getD, List.getElem?_eq_getElem hi]
  refine ⟨?_, ?_, ?_⟩
  · rw [hrow]; simp [rowKeys, List.map_map, Function.comp_def]
  · intro c hc; rw [hrow]; exact rowGet_alignRow_mem _ _ _ hc
  · intro c hc; rw [hrow]; exact rowGet_alignRow_not_mem _ _ _ hc

/-- C8 witness: canonical columns `[a,b,c]` and a row lacking `c` — the
aligned row has keys exactly `[a,b,c]`, keeps `a`'s value, and has
`c = null`; a non-canonical field `z` present in the input is dropped. -/
theorem align_columns_spec_witness :
    rowKeys ((align_columns
        [[("a", Value.vInt 1), ("b", Value.vStr "x"), ("z", Value.vInt 9)]]
        ["a", "b", "c"]).getD 0 []) = ["a", "b", "c"] ∧
    rowGet ((align_columns
        [[("a", Value.vInt 1), ("b", Value.vStr "x"), ("z", Value.vInt 9)]]
        ["a", "b", "c"]).getD 0 []) "c" = Value.vNull ∧
    rowGet ((align_columns
        [[("a", Value.vInt 1), ("b", Value.vStr "x"), ("z", Value.vInt 9)]]
        ["a", "b", "c"]).getD 0 []) "z" = Value.vNull := by
  have h := align_columns_spec
      [[("a", Value.vInt 1), ("b", Value.vStr "x"), ("z", Value.vInt 9)]]
      ["a", "b", "c"] 0 (by decide)
  refine ⟨h.1, ?_, ?_⟩
  · have hc := h.2.1 "c" (by decide)
    rw [hc]; decide
  · exact h.2.2 "z" (by decide)

@[simp] theorem dictGet_nil {α : Type} (k : String) :
    dictGet ([] : List (String × α)) k = none := rfl

theorem dictGet_cons {α : Type} (k' : String) (v' : α)
    (d : List (String × α)) (k : String) :
    dictGet ((k', v') :: d) k = if k' = k then some v' else dictGet d k := by
  by_cases h : k' = k <;> simp [dictGet, List.find?, h]

theorem dictGet_dictSet_self {α : Type} (d : List (String × α))
    (k : String) (v : α) : dictGet (dictSet d k v) k = some v := by
  induction d with
  | nil => simp [dictSet, dictGet_cons]
  | cons e rest ih =>
      obtain ⟨a, b⟩ := e
      by_cases h : a = k
      · simp [dictSet, h, dictGet_cons]
      · simp [dictSet, h, dictGet_cons, ih]

theorem dictGet_dictSet_other {α : Type} (d : List (String × α))
    (k k' : String) (v : α) (hk : k' ≠ k) :
    dictGet (dictSet d k v) k' = dictGet d k' := by
  induction d with
  | nil => simp [dictSet, dictGet_cons, Ne.symm hk]
  | cons e rest ih =>
      obtain ⟨a, b⟩ := e
      by_cases h : a = k
      · subst h
        simp [dictSet, dictGet_cons, Ne.symm hk]
      · simp [dictSet, h, dictGet_cons, ih]

/-- C9. `set_last_sync` is a frame-preserving read-modify-write: the
document written back differs from the document read only at
`last_sync[name]`, which becomes the new value; every other top-level key
and every other mapping's watermark entry are preserved unchanged. -/
theorem set_last_sync_frame (doc : Doc) (name value : String) (doc' : Doc)
    (h : setLastSyncDoc doc name value = some doc') :
    (∀ k, k ≠ "last_sync" → dictGet doc' k = dictGet doc k) ∧
    getLastSyncDoc doc' name = some (JVal.jStr value) ∧
    (∀ m, m ≠ name → getLastSyncDoc doc' m = getLastSyncDoc doc m) := by
  unfold setLastSyncDoc at h
  cases hls : dictGet doc "last_sync" with
  | none =>
      rw [hls] at h
      have hd : doc' = dictSet doc "last_sync" (JVal.jObj [(name, JVal.jStr value)]) := by
        injection h with h'; exact h'.symm
      subst hd
      refine ⟨fun k hk => dictGet_dictSet_other _ _ _ _ hk, ?_, ?_⟩
      · simp [getLastSyncDoc, dictGet_dictSet_self, dictGet_cons]
      · intro m hm
        simp [getLastSyncDoc, dictGet_dictSet_self, hls, dictGet_cons,
          Ne.symm hm]
  | some jv =>
      cases jv with
      | jObj o =>
          rw [hls] at h
          have hd : doc' = dictSet doc "last_sync"
              (JVal.jObj (dictSet o name (JVal.jStr value))) := by
            injection h with h'; exact h'.symm
          subst hd
          refine ⟨fun k hk => dictGet_dictSet_other _ _ _ _ hk, ?_, ?_⟩
          · simp [getLastSyncDoc, dictGet_dictSet_self, dictGet_dictSet_self o]
          · intro m hm
            simp [getLastSyncDoc, dictGet_dictSet_self, hls,
              dictGet_dictSet_other o _ _ _ hm]
      | jNull => rw [hls] at h; cases h
      | jStr s => rw [hls] at h; cases h
      | jNum n => rw [hls] at h; cases h

/-- C9 witness: a document holding another mapping's watermark and an
unrelated top-level key; setting mapping `m2`'s watermark preserves both and
records the new value. -/
theorem set_last_sync_frame_witness :
    dictGet docW9set "version" = some (JVal.jNum 1) ∧
    getLastSyncDoc docW9set "m2" = some (JVal.jStr "2024-01-02") ∧
    getLastSyncDoc docW9set "m1" = some (JVal.jStr "2020-05-05") := by
  have h := set_last_sync_frame docW9 "m2" "2024-01-02" docW9set rfl
  refine ⟨?_, h.2.1, ?_⟩
  · rw [h.1 "version" (by decide)]; rfl
  · rw [h.2.2 "m1" (by decide)]; rfl

theorem fetchRows_none_incl (src : List Int) (s : Int) (bs : Nat) :
    fetchRows src s none bs true
      = (src.filter (fun v => decide (s ≤ v))).take bs := by
  simp [fetchRows]

theorem fetchRows_none_excl (src : List Int) (s : Int) (bs : Nat) :
    fetchRows src s none bs false
      = (src.filter (fun v => decide (s < v))).take bs := by
  simp [fetchRows]

/-- In a strictly sorted list split as `xs ++ ys`, filtering for values
beyond the last element of `xs` yields exactly `ys`. -/
theorem filter_gt_getLast_of_sorted :
    ∀ (xs ys : List Int) (v : Int),
      List.Sorted (· < ·) (xs ++ ys) → xs.getLast? = some v →
      (xs ++ ys).filter (fun x => decide (v < x)) = ys
  | [], _, _, _, hv => by cases hv
  | [a], ys, v, hs, hv => by
      have hva : v = a := by
        simpa using hv.symm
      subst hva
      have hall : ∀ b ∈ ys, v < b := by
        intro b hb
        exact List.rel_of_sorted_cons hs b hb
      have : ys.filter (fun x => decide (v < x)) = ys :=
        List.filter_eq_self.mpr (fun b hb => decide_eq_true (hall b hb))
      simpa [List.filter_cons] using this
  | a :: b :: xs, ys, v, hs, hv => by
      have hv' : (b :: xs).getLast? = some v := by
        simpa using hv
      have hvmem : v ∈ b :: xs := List.mem_of_getLast?_eq_some hv'
      have hav : a < v :=
        List.rel_of_sorted_cons hs v (by
          simpa using List.mem_append_left ys hvmem)
      have htail := filter_gt_getLast_of_sorted (b :: xs) ys v
        (List.Sorted.of_cons hs) hv'
      have hna : ¬ v < a := fun h => absurd (lt_trans hav h) (lt_irrefl a)
      simpa [List.filter_cons, hna] using htail

/-- The last element of a strictly sorted list bounds every element. -/
theorem le_getLast_of_sorted :
    ∀ (l : List Int), List.Sorted (· < ·) l →
      ∀ {x v : Int}, x ∈ l → l.getLast? = some v → x ≤ v
  | [], _, _, _, hx, _ => by cases hx
  | [a], _, x, v, hx, hv => by
      have hxa : x = a := by simpa using hx
      have hav : a = v := by simpa using hv
      simp [hxa, hav]
  | a :: b :: l, hs, x, v, hx, hv => by
      have hv' : (b :: l).getLast? = some v := by simpa using hv
      cases hx with
      | head =>
          have hvmem : v ∈ b :: l := List.mem_of_getLast?_eq_some hv'
          exact le_of_lt (List.rel_of_sorted_cons hs v hvmem)
      | tail _ hx' =>
          exact le_getLast_of_sorted (b :: l) (List.Sorted.of_cons hs) hx' hv'

/-- Narrow an outer filter: when `last < x` already forces `p x`,
pre-filtering by `p` does not change a `last < ·` filter. -/
theorem filter_absorb (src : List Int) (p : Int → Bool) (last : Int)
    (h : ∀ x, last < x → p x = true) :
    (src.filter p).filter (fun x => decide (last < x))
      = src.filter (fun x => decide (last < x)) := by
  rw [List.filter_filter]
  refine List.filter_congr (fun a _ => ?_)
  by_cases hla : last < a
  · simp [hla, h a hla]
  · simp [hla]

/-- In a strictly sorted list, filtering past the last element of
`take bs` is exactly `drop bs`. -/
theorem filter_gt_last_take (R : List Int) (bs : Nat) (last : Int)
    (hR : List.Sorted (· < ·) R)
    (hlast : (R.take bs).getLast? = some last) :
    R.filter (fun x => decide (last < x)) = R.drop bs := by
  have hsplit : R.take bs ++ R.drop bs = R := List.take_append_drop bs R
  have := filter_gt_getLast_of_sorted (R.take bs) (R.drop bs) last
    (by rw [hsplit]; exact hR) hlast
  rw [hsplit] at this
  exact this

/-- The non-first pages of the pagination loop accumulate exactly the rows
strictly beyond the running bound, given enough fuel. -/
theorem paginateLoop_false_eq (src : List Int) (bs : Nat)
    (hs : List.Sorted (· < ·) src) (hbs : 0 < bs) :
    ∀ (fuel : Nat) (v : Int),
      (src.filter (fun x => decide (v < x))).length ≤ fuel →
      paginateLoop src bs fuel v false
        = src.filter (fun x => decide (v < x)) := by
  intro fuel
  induction fuel with
  | zero =>
      intro v hlen
      have : src.filter (fun x => decide (v < x)) = [] :=
        List.length_eq_zero.mp (Nat.le_zero.mp hlen)
      simp [paginateLoop, this]
  | succ fuel ih =>
      intro v hlen
      rw [paginateLoop]
      rw [fetchRows_none_excl]
      set R := src.filter (fun x => decide (v < x)) with hRdef
      cases hlast : (R.take bs).getLast? with
      | none =>
          have hnil : R.take bs = [] := List.getLast?_eq_none_iff.mp hlast
          rcases List.take_eq_nil_iff.mp hnil with h0 | h0
          · omega
          · simp [h0]
      | some last =>
          have hRsorted : List.Sorted (· < ·) R :=
            List.Pairwise.sublist (List.filter_sublist src) hs
          have hlastR : last ∈ R :=
            List.mem_of_mem_take (List.mem_of_getLast?_eq_some hlast)
          have hvlast : v < last := by
            have := List.mem_filter.mp (hRdef ▸ hlastR)
            exact of_decide_eq_true this.2
          have hrec : src.filter (fun x => decide (last < x)) = R.drop bs := by
            rw [← filter_absorb src (fun x => decide (v < x)) last
              (fun x hx => decide_eq_true (lt_trans hvlast hx))]
            exact filter_gt_last_take R bs last hRsorted hlast
          have hRne : R ≠ [] := by
            intro h
            rw [h] at hlast
            simp at hlast
          have hlen' : (src.filter (fun x => decide (last < x))).length ≤ fuel := by
            rw [hrec, List.length_drop]
            have h1 : 0 < R.length := List.length_pos.mpr hRne
            omega
          show R.take bs ++ paginateLoop src bs fuel last false = R
          rw [ih last hlen', hrec, List.take_append_drop]

/-- The pagination loop accumulates exactly the filter of the source at
the watermark (shared workhorse for the pagination and watermark
theorems). -/
theorem fetchAllRecords_eq_filter (src : List Int) (w : Int) (bs : Nat)
    (hs : List.Sorted (· < ·) src) (hbs : 0 < bs) :
    fetchAllRecords src w bs = src.filter (fun v => decide (w ≤ v)) := by
  rw [fetchAllRecords, paginateLoop]
  rw [fetchRows_none_incl]
  set R := src.filter (fun v => decide (w ≤ v)) with hRdef
  cases hlast : (R.take bs).getLast? with
  | none =>
      have hnil : R.take bs = [] := List.getLast?_eq_none_iff.mp hlast
      rcases List.take_eq_nil_iff.mp hnil with h0 | h0
      · omega
      · simp [h0]
  | some last =>
      have hRsorted : List.Sorted (· < ·) R :=
        List.Pairwise.sublist (List.filter_sublist src) hs
      have hlastR : last ∈ R :=
        List.mem_of_mem_take (List.mem_of_getLast?_eq_some hlast)
      have hwlast : w ≤ last := by
        have := List.mem_filter.mp (hRdef ▸ hlastR)
        exact of_decide_eq_true this.2
      have hrec : src.filter (fun x => decide (last < x)) = R.drop bs := by
        rw [← filter_absorb src (fun v => decide (w ≤ v)) last
          (fun x hx => decide_eq_true (le_of_lt (lt_of_le_of_lt hwlast hx)))]
        exact filter_gt_last_take R bs last hRsorted hlast
      have hlen' : (src.filter (fun x => decide (last < x))).length
          ≤ src.length := List.length_filter_le _ _
      show R.take bs ++ paginateLoop src bs src.length last false = R
      rw [paginateLoop_false_eq src bs hs hbs src.length last hlen', hrec,
        List.take_append_drop]

/-- C1. Gapless, duplicate-free pagination: over a source whose
incremental values are pairwise distinct and ascending, the orchestrator's
pagination loop (inclusive `>=` first page against the watermark,
exclusive `>` against the last row of the prior page afterwards)
accumulates exactly the rows with value `>=` the watermark — the precise
filter of the source, hence no row duplicated and no row skipped. -/
theorem pagination_accumulates_window (src : List Int) (w : Int) (bs : Nat)
    (hs : List.Sorted (· < ·) src) (hbs : 0 < bs) :
    fetchAllRecords src w bs = src.filter (fun v => decide (w ≤ v)) :=
  fetchAllRecords_eq_filter src w bs hs hbs

/-- C1 witness: incremental values `1..25` with page size `10` are
reconstructed exactly, in order, with no duplicate and no gap (pages of
10/10/5 behind the scenes). -/
theorem pagination_accumulates_window_witness :
    fetchAllRecords
        [1, 2, 3, 4, 5, 6, 7, 8, 9, 10, 11, 12, 13, 14, 15, 16, 17, 18, 19,
          20, 21, 22, 23, 24, 25] 1 10
      = [1, 2, 3, 4, 5, 6, 7, 8, 9, 10, 11, 12, 13, 14, 15, 16, 17, 18, 19,
          20, 21, 22, 23, 24, 25] := by
  rw [pagination_accumulates_window
    [1, 2, 3, 4, 5, 6, 7, 8, 9, 10, 11, 12, 13, 14, 15, 16, 17, 18, 19,
      20, 21, 22, 23, 24, 25] 1 10 (by decide) (by decide)]
  decide

theorem backfillRecords_eq (src : List Int) (start : Int)
    (endv : Option Int) :
    backfillRecords src start endv = fetchRows src start endv 100000 false := by
  simp [backfillRecords, fetch_incremental]

/-- C10. Backfill uses exclusive bounds on both ends: the default
operator `>` applies to `--start` and its paired upper operator `<` to
`--end`, so a row whose incremental value equals either bound is excluded
from the extracted window. -/
theorem backfill_excludes_bounds (src : List Int) (start endv x : Int)
    (hx : x ∈ backfillRecords src start (some endv)) :
    x ≠ start ∧ x ≠ endv := by
  rw [backfillRecords_eq] at hx
  have hmem := List.mem_of_mem_take hx
  have hpred := (List.mem_filter.mp hmem).2
  have h1 : start < x := by
    have := (Bool.and_eq_true _ _).mp hpred |>.1
    simpa using of_decide_eq_true this
  have h2 : x < endv := by
    have := (Bool.and_eq_true _ _).mp hpred |>.2
    simpa using of_decide_eq_true this
  exact ⟨ne_of_gt h1, ne_of_lt h2⟩

/-- C10 witness: backfilling `[1,2,3]` with `--start 1 --end 3` extracts
row `2` (and it is neither bound). -/
theorem backfill_excludes_bounds_witness :
    (2 : Int) ∈ backfillRecords [1, 2, 3] 1 (some 3) ∧
    ((2 : Int) ≠ 1 ∧ (2 : Int) ≠ 3) := by
  refine ⟨by decide, backfill_excludes_bounds [1, 2, 3] 1 3 2 (by decide)⟩

/-- C2. When the load step fails, `_run_mapping` never reaches the
watermark write: the watermark store after the run is exactly the pre-run
store (in particular this mapping's entry is unchanged and the next run
retries the same window), and the run does not count as a success. -/
theorem load_failure_preserves_watermark (src : List Int) (store : WStore)
    (name : String) (fallback : Int) :
    (runMapping src store name fallback false).1 = store ∧
    storedWatermark (runMapping src store name fallback false).1 name fallback
      = storedWatermark store name fallback ∧
    (runMapping src store name fallback false).2 = false := by
  refine ⟨rfl, rfl, rfl⟩

/-- C3. Watermark monotonicity across successful runs: appending one more
successful run to any sequence of successful runs never decreases the
stored watermark, and strictly increases it whenever the new run's source
holds a row strictly beyond the old watermark. -/
theorem watermark_monotone (runs : List (List Int)) (src : List Int)
    (name : String) (fallback : Int) (store : WStore)
    (hs : List.Sorted (· < ·) src) :
    storedWatermark (runSeq name fallback store runs) name fallback
      ≤ storedWatermark (runSeq name fallback store (runs ++ [src])) name
          fallback ∧
    ((∃ x ∈ src,
        storedWatermark (runSeq name fallback store runs) name fallback < x) →
      storedWatermark (runSeq name fallback store runs) name fallback
        < storedWatermark (runSeq name fallback store (runs ++ [src])) name
            fallback) := by
  have hstep : runSeq name fallback store (runs ++ [src])
      = (runMapping src (runSeq name fallback store runs) name fallback
          true).1 := by
    simp [runSeq, List.foldl_append]
  rw [hstep]
  simp only [storedWatermark]
  set st := runSeq name fallback store runs with hst
  set w := (dictGet st name).getD fallback with hwdef
  have hall : fetchAllRecords src w 10000
      = src.filter (fun v => decide (w ≤ v)) :=
    fetchAllRecords_eq_filter src w 10000 hs (by norm_num)
  cases hlast : (src.filter (fun v => decide (w ≤ v))).getLast? with
  | none =>
      have hnil : src.filter (fun v => decide (w ≤ v)) = [] :=
        List.getLast?_eq_none_iff.mp hlast
      have hres : (runMapping src st name fallback true).1 = st := by
        simp [runMapping, ← hwdef, hall, hlast]
      rw [hres]
      constructor
      · exact le_refl _
      · rintro ⟨x, hxsrc, hxw⟩
        have hxmem : x ∈ src.filter (fun v => decide (w ≤ v)) :=
          List.mem_filter.mpr ⟨hxsrc, decide_eq_true (le_of_lt hxw)⟩
        rw [hnil] at hxmem
        cases hxmem
  | some v =>
      have hRsorted : List.Sorted (· < ·)
          (src.filter (fun v => decide (w ≤ v))) :=
        List.Pairwise.sublist (List.filter_sublist src) hs
      have hvmem : v ∈ src.filter (fun v => decide (w ≤ v)) :=
        List.mem_of_getLast?_eq_some hlast
      have hwv : w ≤ v :=
        of_decide_eq_true (List.mem_filter.mp hvmem).2
      have hres : (runMapping src st name fallback true).1
          = dictSet st name v := by
        simp [runMapping, ← hwdef, hall, hlast]
      rw [hres]
      have hnew : (dictGet (dictSet st name v) name).getD fallback = v := by
        simp [dictGet_dictSet_self]
      rw [hnew]
      constructor
      · exact hwv
      · rintro ⟨x, hxsrc, hxw⟩
        have hxmem : x ∈ src.filter (fun v => decide (w ≤ v)) :=
          List.mem_filter.mpr ⟨hxsrc, decide_eq_true (le_of_lt hxw)⟩
        have hxv : x ≤ v := le_getLast_of_sorted _ hRsorted hxmem hlast
        exact lt_of_lt_of_le hxw hxv

/-- C3 witness: after a first run over `[1,2]` (watermark 2), a second run
over `[1,2,3]` advances the watermark strictly (new row `3`), never below
the old value. -/
theorem watermark_monotone_witness :
    storedWatermark (runSeq "m" 0 [] [[1, 2]]) "m" 0
      ≤ storedWatermark (runSeq "m" 0 [] [[1, 2], [1, 2, 3]]) "m" 0 ∧
    storedWatermark (runSeq "m" 0 [] [[1, 2]]) "m" 0
      < storedWatermark (runSeq "m" 0 [] [[1, 2], [1, 2, 3]]) "m" 0 := by
  have h := watermark_monotone [[1, 2]] [1, 2, 3] "m" 0 [] (by decide)
  have h3 : (3 : Int) ∈ [(1 : Int), 2, 3] := by decide
  have hlt : storedWatermark (runSeq "m" 0 [] [[1, 2]]) "m" 0 < 3 := by decide
  exact ⟨h.1, h.2 ⟨3, h3, hlt⟩⟩

theorem tenacityRetry_step {α : Type} (retryOn : PyErr → Bool)
    (call : Nat → Except PyErr α) (n i : Nat) (e : PyErr) (hn : 2 ≤ n)
    (he : call i = Except.error e) (hr : retryOn e = true) :
    tenacityRetry retryOn call n i
      = tenacityRetry retryOn call (n - 1) (i + 1) := by
  obtain ⟨m, rfl⟩ : ∃ m, n = m + 2 := ⟨n - 2, by omega⟩
  simp [tenacityRetry, he, hr]

theorem tenacityRetry_last {α : Type} (retryOn : PyErr → Bool)
    (call : Nat → Except PyErr α) (i : Nat) :
    tenacityRetry retryOn call 1 i = (i + 1, call i) := rfl

/-- C5 counterexample: a bad-query error (`ProgrammingError`, a subclass
of `mysql.connector.Error`) is NOT surfaced immediately — the decorated
call makes all 5 attempts before re-raising it, contradicting the claim
that non-transient driver errors are never retried. -/
theorem retry_policy_counterexample :
    (fetchWithRetry (fun _ =>
        (Except.error PyErr.badQuery : Except PyErr (List Int)))).1 = 5 ∧
    (fetchWithRetry (fun _ =>
        (Except.error PyErr.badQuery : Except PyErr (List Int)))).1 ≠ 1 := by
  constructor <;> decide

/-- C5 (amended). The retry boundary is the driver error class, not
transience: any `mysql.connector.Error` — connection reset and timeout,
but equally bad query and auth failure, which subclass it — is retried
(with the configured exponential backoff) up to the fixed cap of 5
attempts, after which the original error of the last attempt is re-raised
unchanged; an error outside the driver class surfaces immediately on the
first attempt; a successful attempt returns immediately. -/
theorem retry_policy_amended {α : Type} (call : Nat → Except PyErr α) :
    (∀ a, call 0 = Except.ok a → fetchWithRetry call = (1, Except.ok a)) ∧
    (∀ e, call 0 = Except.error e → isMySQLError e = false →
      fetchWithRetry call = (1, Except.error e)) ∧
    ((∀ i, i < 5 → ∃ e, call i = Except.error e ∧ isMySQLError e = true) →
      fetchWithRetry call = (5, call 4)) := by
  refine ⟨?_, ?_, ?_⟩
  · intro a ha
    show tenacityRetry isMySQLError call 5 0 = (1, Except.ok a)
    rw [show (5 : Nat) = 3 + 2 from rfl, tenacityRetry, ha]
  · intro e he hme
    show tenacityRetry isMySQLError call 5 0 = (1, Except.error e)
    rw [show (5 : Nat) = 3 + 2 from rfl, tenacityRetry, he]
    simp [hme]
  · intro h
    obtain ⟨e0, he0, hm0⟩ := h 0 (by omega)
    obtain ⟨e1, he1, hm1⟩ := h 1 (by omega)
    obtain ⟨e2, he2, hm2⟩ := h 2 (by omega)
    obtain ⟨e3, he3, hm3⟩ := h 3 (by omega)
    show tenacityRetry isMySQLError call 5 0 = (5, call 4)
    rw [tenacityRetry_step isMySQLError call 5 0 e0 (by omega) he0 hm0]
    rw [show (5 : Nat) - 1 = 4 from rfl,
      tenacityRetry_step isMySQLError call 4 1 e1 (by omega) he1 hm1]
    rw [show (4 : Nat) - 1 = 3 from rfl,
      tenacityRetry_step isMySQLError call 3 2 e2 (by omega) he2 hm2]
    rw [show (3 : Nat) - 1 = 2 from rfl,
      tenacityRetry_step isMySQLError call 2 3 e3 (by omega) he3 hm3]
    rw [show (2 : Nat) - 1 = 1 from rfl, tenacityRetry_last]

/-- C5 witness for the amended policy: a call that yields a timeout on
every attempt exhausts the 5-attempt cap and re-raises the timeout; a call
that raises `ValueError` immediately surfaces it after one attempt. -/
theorem retry_policy_amended_witness :
    fetchWithRetry (fun _ =>
        (Except.error PyErr.timeout : Except PyErr (List Int)))
      = (5, Except.error PyErr.timeout) ∧
    fetchWithRetry (fun _ =>
        (Except.error (PyErr.valueErr "operator must be > or >=")
          : Except PyErr (List Int)))
      = (1, Except.error (PyErr.valueErr "operator must be > or >=")) := by
  constructor
  · exact (retry_policy_amended (fun _ =>
      (Except.error PyErr.timeout : Except PyErr (List Int)))).2.2
      (fun i _ => ⟨PyErr.timeout, rfl, rfl⟩)
  · exact (retry_policy_amended (fun _ =>
      (Except.error (PyErr.valueErr "operator must be > or >=")
        : Except PyErr (List Int)))).2.1
      (PyErr.valueErr "operator must be > or >=") rfl rfl

/-- C6 (code bug): with two mappings where the first's processing raises
(e.g. schema discovery fails) and the second succeeds, `run_once` does
continue with — and complete — the second mapping, but the failed mapping
gets NO report entry at all: the run report is exactly the second
mapping's success entry, and no entry with a non-empty `errors` list
exists.  The `RunReport.errors` field is never populated anywhere in the
code. -/
theorem run_once_drops_failed_mapping :
    run_once
        [Except.error "mapping m1: schema discovery failed",
          Except.ok ⟨"m2", "append", 5, []⟩]
      = [⟨"m2", "append", 5, []⟩] ∧
    ∀ rep ∈ run_once
        [Except.error "mapping m1: schema discovery failed",
          Except.ok ⟨"m2", "append", 5, []⟩], rep.errors = [] := by
  constructor
  · rfl
  · intro rep hrep
    have : rep = ⟨"m2", "append", 5, []⟩ := by
      simpa [run_once] using hrep
    rw [this]

theorem dictGet_removeTable_other (tb : BQTables) (k k' : String)
    (hk : k' ≠ k) : dictGet (removeTable tb k) k' = dictGet tb k' := by
  induction tb with
  | nil => rfl
  | cons e rest ih =>
      obtain ⟨a, b⟩ := e
      by_cases h : a = k
      · subst h
        simp [removeTable, dictGet_cons, Ne.symm hk] at ih ⊢
        exact ih
      · by_cases h' : a = k'
        · subst h'
          simp [removeTable, List.filter_cons, hk, dictGet_cons]
        · simp [removeTable, List.filter_cons, h, dictGet_cons, h'] at ih ⊢
          exact ih

theorem dictGet_removeTable_self (tb : BQTables) (k : String) :
    dictGet (removeTable tb k) k = none := by
  induction tb with
  | nil => rfl
  | cons e rest ih =>
      obtain ⟨a, b⟩ := e
      by_cases h : a = k
      · simpa [removeTable, h] using ih
      · simpa [removeTable, h, dictGet_cons] using ih

theorem stagingName_ne (table : String) (pid : Nat) :
    stagingName table pid ≠ table := by
  intro h
  have hlen := congrArg String.length h
  rw [stagingName] at hlen
  simp only [String.length_append] at hlen
  have h1 : ("_" : String).length = 1 := rfl
  have h2 : ("_staging_" : String).length = 9 := rfl
  omega

/-- C4 (code bug): the staging-table delete sits on the success path only
— there is no `try/finally` in `load_upsert` — so when the merge raises,
the error propagates with the staging table still present in the dataset,
still holding the batch; on the success path the same call does delete
it. -/
theorem load_upsert_staging_leak :
    dictGet (load_upsert [] "t" [[("id", Value.vInt 1)]] ["id"] 7 false).1
        (stagingName "t" 7) = some [[("id", Value.vInt 1)]] ∧
    (load_upsert [] "t" [[("id", Value.vInt 1)]] ["id"] 7 false).2
      = Except.error "merge failed" ∧
    dictGet (load_upsert [] "t" [[("id", Value.vInt 1)]] ["id"] 7 true).1
        (stagingName "t" 7) = none := by
  refine ⟨rfl, rfl, rfl⟩

theorem rowGet_of_not_mem_keys (r : Row) (c : String)
    (hc : c ∉ rowKeys r) : rowGet r c = Value.vNull := by
  induction r with
  | nil => rfl
  | cons e r' ih =>
      obtain ⟨a, b⟩ := e
      have ha : a ≠ c := fun h => hc (by simp [rowKeys, h])
      have h' : c ∉ rowKeys r' := fun h => hc (by simp [rowKeys] at h ⊢; right; exact h)
      rw [rowGet_cons]
      simp [ha, ih h']

theorem rowKeys_updateRow (pks : List String) (t s : Row) :
    rowKeys (updateRow pks t s) = rowKeys t := by
  simp [rowKeys, updateRow, List.map_map, Function.comp_def]

theorem rowGet_updateRow_pk (pks : List String) (s : Row) (p : String)
    (hp : p ∈ pks) : ∀ t : Row, rowGet (updateRow pks t s) p = rowGet t p := by
  intro t
  induction t with
  | nil => rfl
  | cons e t' ih =>
      obtain ⟨a, b⟩ := e
      rw [updateRow, List.map_cons]
      rw [rowGet_cons, rowGet_cons]
      by_cases hap : a = p
      · subst hap
        simp [hp]
      · simpa [hap] using ih

theorem pkProj_updateRow (pks : List String) (t s : Row) :
    pkProj pks (updateRow pks t s) = pkProj pks t :=
  List.map_congr_left (fun p hp => rowGet_updateRow_pk pks s p hp t)

theorem rowGet_eq_of_pkProj_eq (pks : List String) (t s : Row)
    (h : pkProj pks t = pkProj pks s) :
    ∀ p ∈ pks, rowGet t p = rowGet s p := by
  induction pks with
  | nil => intro p hp; cases hp
  | cons q qs ih =>
      rw [pkProj, pkProj, List.map_cons, List.map_cons] at h
      injection h with h1 h2
      intro p hp
      cases hp with
      | head => exact h1
      | tail _ hp' => exact ih h2 p hp'

/-- Under column alignment, updating a matched target row from a staging
row with the same key projection rebuilds exactly the staging row: key
columns agree by the match, every other column is overwritten. -/
theorem updateRow_eq_of_aligned (pks : List String) :
    ∀ (t s : Row), rowKeys t = rowKeys s → (rowKeys t).Nodup →
      (∀ p ∈ pks, rowGet t p = rowGet s p) → updateRow pks t s = s
  | [], s, hks, _, _ => by
      have hs' : s = [] := by
        have : rowKeys s = [] := hks.symm
        simpa [rowKeys, List.map_eq_nil_iff] using this
      subst hs'; rfl
  | (a, tv) :: t', s, hks, hnd, hpw => by
      cases s with
      | nil => simp [rowKeys] at hks
      | cons se s' =>
        obtain ⟨b, sv⟩ := se
        simp only [rowKeys, List.map_cons, List.cons.injEq] at hks
        obtain ⟨hab, hks'⟩ := hks
        subst hab
        have hnd2 := hnd
        simp only [rowKeys, List.map_cons] at hnd2
        obtain ⟨hcn, hnd'⟩ := List.nodup_cons.mp hnd2
        rw [updateRow, List.map_cons]
        have hhead : (a, if a ∈ pks then tv else rowGet ((a, sv) :: s') a)
            = (a, sv) := by
          by_cases hcp : a ∈ pks
          · have hv := hpw a hcp
            simp [rowGet_cons] at hv
            simp [hcp, hv]
          · simp [hcp, rowGet_cons]
        rw [hhead]
        have htail : t'.map (fun e =>
            (e.1, if e.1 ∈ pks then e.2 else rowGet ((a, sv) :: s') e.1))
            = updateRow pks t' s' := by
          rw [updateRow]
          refine List.map_congr_left (fun e he => ?_)
          have hec : e.1 ≠ a := by
            intro h
            apply hcn
            rw [← h]
            exact List.mem_map_of_mem Prod.fst he
          have hce : a ≠ e.1 := fun h => hec h.symm
          rw [rowGet_cons]
          simp [hce]
        rw [htail]
        have hpw' : ∀ p ∈ pks, rowGet t' p = rowGet s' p := by
          intro p hp
          by_cases hpc : p = a
          · subst hpc
            have h1 : p ∉ rowKeys t' := hcn
            have h2 : p ∉ rowKeys s' := by
              simp only [rowKeys]
              rw [← hks']
              exact hcn
            rw [rowGet_of_not_mem_keys t' p h1, rowGet_of_not_mem_keys s' p h2]
          · have hv := hpw p hp
            rw [rowGet_cons, rowGet_cons] at hv
            have hap : a ≠ p := fun h => hpc h.symm
            simpa [hap] using hv
        rw [updateRow_eq_of_aligned pks t' s' hks' hnd' hpw']

/-- When staging key projections are pairwise distinct, the MERGE's source
row for a matched target row is exactly the staging row with the same
projection. -/
theorem find?_staging_eq_some (pks : List String) :
    ∀ (S : List Row) (s r : Row), (S.map (pkProj pks)).Nodup → s ∈ S →
      pkProj pks r = pkProj pks s →
      S.find? (fun s' => decide (pkProj pks s' = pkProj pks r)) = some s
  | [], s, _, _, hs, _ => absurd hs (List.not_mem_nil s)
  | s₁ :: S', s, r, hnd, hs, hpr => by
      have hnd2 := hnd
      rw [List.map_cons] at hnd2
      obtain ⟨hnotin, hnd'⟩ := List.nodup_cons.mp hnd2
      by_cases h₁ : pkProj pks s₁ = pkProj pks r
      · have hb : decide (pkProj pks s₁ = pkProj pks r) = true := decide_eq_true h₁
        simp only [List.find?, hb, cond_true]
        cases hs with
        | head => rfl
        | tail _ hs' =>
            exfalso
            apply hnotin
            rw [h₁, hpr]
            exact List.mem_map_of_mem (pkProj pks) hs'
      · have hb : decide (pkProj pks s₁ = pkProj pks r) = false :=
          decide_eq_false h₁
        simp only [List.find?, hb, cond_false]
        cases hs with
        | head => exact absurd hpr.symm h₁
        | tail _ hs' => exact find?_staging_eq_some pks S' s r hnd' hs' hpr

theorem any_pk_iff (pks : List String) (T : List Row) (s : Row) :
    (T.any (fun t => decide (pkProj pks t = pkProj pks s)) = true) ↔
      pkProj pks s ∈ T.map (pkProj pks) := by
  rw [List.any_eq_true]
  constructor
  · rintro ⟨t, ht, hdec⟩
    exact List.mem_map.mpr ⟨t, ht, of_decide_eq_true hdec⟩
  · intro hmem
    obtain ⟨t, ht, heq⟩ := List.mem_map.mp hmem
    exact ⟨t, ht, decide_eq_true heq⟩

theorem mergeRows_map_pkProj (pks : List String) (T S : List Row) :
    (mergeRows pks T S).map (pkProj pks)
      = T.map (pkProj pks)
        ++ (S.filter (fun s =>
            !(T.any (fun t =>
              decide (pkProj pks t = pkProj pks s))))).map (pkProj pks) := by
  rw [mergeRows, List.map_append]
  congr 1
  rw [List.map_map]
  refine List.map_congr_left (fun t ht => ?_)
  simp only [Function.comp]
  cases hf : S.find? (fun s => decide (pkProj pks s = pkProj pks t)) with
  | none => rfl
  | some s => exact pkProj_updateRow pks t s

theorem mergeRows_nil (pks : List String) (T : List Row) :
    mergeRows pks T [] = T := by
  rw [mergeRows]
  simp [List.find?]

theorem rowKeys_mergeRows (pks : List String) (T S : List Row)
    (cols : List String) (hT : ∀ r ∈ T, rowKeys r = cols)
    (hS : ∀ s ∈ S, rowKeys s = cols) :
    ∀ r ∈ mergeRows pks T S, rowKeys r = cols := by
  intro r hr
  rw [mergeRows] at hr
  rcases List.mem_append.mp hr with h | h
  · obtain ⟨t, ht, hre⟩ := List.mem_map.mp h
    cases hf : S.find? (fun s => decide (pkProj pks s = pkProj pks t)) with
    | none =>
        rw [hf] at hre
        rw [← hre]
        exact hT t ht
    | some s =>
        rw [hf] at hre
        rw [← hre, rowKeys_updateRow]
        exact hT t ht
  · exact hS r (List.mem_of_mem_filter h)

theorem mergeRows_map_pkProj_nodup (pks : List String) (T S : List Row)
    (hTn : (T.map (pkProj pks)).Nodup)
    (hSn : (S.map (pkProj pks)).Nodup) :
    ((mergeRows pks T S).map (pkProj pks)).Nodup := by
  rw [mergeRows_map_pkProj]
  rw [List.nodup_append]
  refine ⟨hTn, ?_, ?_⟩
  · exact List.Nodup.sublist
      (List.Sublist.map (pkProj pks) (List.filter_sublist S)) hSn
  · intro x hxT hxF
    obtain ⟨s, hsf, hse⟩ := List.mem_map.mp hxF
    have hsS := List.mem_filter.mp hsf
    have hnot : ¬ (pkProj pks s ∈ T.map (pkProj pks)) := by
      intro hmem
      have := (any_pk_iff pks T s).mpr hmem
      rw [this] at hsS
      simp at hsS
    exact hnot (hse ▸ hxT)

theorem pkProj_mem_mergeRows (pks : List String) (T S : List Row) (s : Row)
    (hs : s ∈ S) :
    pkProj pks s ∈ (mergeRows pks T S).map (pkProj pks) := by
  rw [mergeRows_map_pkProj]
  by_cases h : pkProj pks s ∈ T.map (pkProj pks)
  · exact List.mem_append_left _ h
  · refine List.mem_append_right _ ?_
    refine List.mem_map_of_mem (pkProj pks) (List.mem_filter.mpr ⟨hs, ?_⟩)
    cases hany : T.any (fun t => decide (pkProj pks t = pkProj pks s)) with
    | false => rfl
    | true => exact absurd ((any_pk_iff pks T s).mp hany) h

/-- Applying the (spec-modelled) merge twice with the same batch: under
pairwise-distinct staging keys, a key-unique target and a shared
duplicate-free column layout, the result holds at most one row per key
projection, and for every batch row exactly that row (full column
equality).  `T` is the destination before the first load, `S` the batch. -/
theorem mergeRows_twice_spec (pks cols : List String) (T S : List Row)
    (hcols : cols.Nodup)
    (hT : ∀ r ∈ T, rowKeys r = cols) (hS : ∀ s ∈ S, rowKeys s = cols)
    (hTn : (T.map (pkProj pks)).Nodup)
    (hSn : (S.map (pkProj pks)).Nodup) :
    (((mergeRows pks (mergeRows pks T S) S).map (pkProj pks)).Nodup) ∧
    ∀ s ∈ S, s ∈ mergeRows pks (mergeRows pks T S) S ∧
      ∀ r ∈ mergeRows pks (mergeRows pks T S) S,
        pkProj pks r = pkProj pks s → r = s := by
  have hM1keys : ∀ r ∈ mergeRows pks T S, rowKeys r = cols :=
    rowKeys_mergeRows pks T S cols hT hS
  have hM1n : ((mergeRows pks T S).map (pkProj pks)).Nodup :=
    mergeRows_map_pkProj_nodup pks T S hTn hSn
  have hfilter : S.filter (fun s =>
      !((mergeRows pks T S).any (fun t =>
        decide (pkProj pks t = pkProj pks s)))) = [] := by
    rw [List.filter_eq_nil_iff]
    intro s hs
    have hmem := pkProj_mem_mergeRows pks T S s hs
    have hany := (any_pk_iff pks (mergeRows pks T S) s).mpr hmem
    simp [hany]
  have hM2 : mergeRows pks (mergeRows pks T S) S
      = (mergeRows pks T S).map (fun t =>
          match S.find? (fun s => decide (pkProj pks s = pkProj pks t)) with
          | some s => updateRow pks t s
          | none => t) := by
    conv_lhs => rw [mergeRows]
    rw [hfilter, List.append_nil]
  have hmapsto : ∀ r ∈ mergeRows pks T S, ∀ s ∈ S,
      pkProj pks r = pkProj pks s →
      (match S.find? (fun s' => decide (pkProj pks s' = pkProj pks r)) with
       | some s' => updateRow pks r s'
       | none => r) = s := by
    intro r hr s hs hpk
    rw [find?_staging_eq_some pks S s r hSn hs hpk]
    refine updateRow_eq_of_aligned pks r s ?_ ?_
      (rowGet_eq_of_pkProj_eq pks r s hpk)
    · rw [hM1keys r hr, hS s hs]
    · rw [hM1keys r hr]; exact hcols
  constructor
  · exact mergeRows_map_pkProj_nodup pks (mergeRows pks T S) S hM1n hSn
  · intro s hs
    have hpks2 : pkProj pks s ∈ (mergeRows pks T S).map (pkProj pks) :=
      pkProj_mem_mergeRows pks T S s hs
    obtain ⟨r, hrM1, hpkr⟩ := List.mem_map.mp hpks2
    constructor
    · rw [hM2]
      exact List.mem_map.mpr ⟨r, hrM1, hmapsto r hrM1 s hs hpkr⟩
    · intro r₂ hr₂ hpk₂
      rw [hM2] at hr₂
      obtain ⟨r₀, hr₀, hre⟩ := List.mem_map.mp hr₂
      have hpk0 : pkProj pks r₂ = pkProj pks r₀ := by
        rw [← hre]
        cases hf : S.find? (fun s' =>
            decide (pkProj pks s' = pkProj pks r₀)) with
        | none => rfl
        | some s' => exact pkProj_updateRow pks r₀ s'
      rw [← hre]
      exact hmapsto r₀ hr₀ s hs (by rw [← hpk0, hpk₂])

theorem dictGetD_ensureTable (tb : BQTables) (name : String) :
    (dictGet (ensureTable tb name) name).getD []
      = (dictGet tb name).getD [] := by
  rw [ensureTable]
  cases h : dictGet tb name with
  | some v => simp [h]
  | none => simp [dictGet_dictSet_self]

/-- One successful `load_upsert` rewrites the destination table to the
merge of its previous contents with the batch (and nothing of the
destination is consulted or changed through the staging machinery: the
staging table has a distinct name and is created, loaded, and dropped
around the merge). -/
theorem load_upsert_table_state (tb : BQTables) (table : String)
    (rows : List Row) (pks : List String) (pid : Nat) :
    (dictGet (load_upsert tb table rows pks pid true).1 table).getD []
      = mergeRows pks ((dictGet tb table).getD []) rows := by
  have hne : table ≠ stagingName table pid :=
    fun h => stagingName_ne table pid h.symm
  cases hrows : rows.isEmpty with
  | true =>
      have hr : rows = [] := List.isEmpty_iff.mp (by rw [hrows])
      subst hr
      rw [mergeRows_nil]
      rw [load_upsert]
      rfl
  | false =>
      rw [load_upsert]
      rw [hrows]
      show (dictGet (removeTable (dictSet
          (dictSet (dictSet (removeTable (ensureTable tb table)
            (stagingName table pid)) (stagingName table pid) [])
            (stagingName table pid) rows) table
          (mergeRows pks ((dictGet (dictSet (dictSet (removeTable
            (ensureTable tb table) (stagingName table pid))
            (stagingName table pid) []) (stagingName table pid) rows)
            table).getD []) rows)) (stagingName table pid)) table).getD []
        = mergeRows pks ((dictGet tb table).getD []) rows
      rw [dictGet_removeTable_other _ _ _ hne]
      rw [dictGet_dictSet_self]
      rw [dictGet_dictSet_other _ _ _ _ hne]
      rw [dictGet_dictSet_other _ _ _ _ hne]
      rw [dictGet_removeTable_other _ _ _ hne]
      rw [Option.getD]
      rw [dictGetD_ensureTable]

/-- C7 counterexample: for a batch whose rows repeat a primary-key value,
loading it twice does NOT leave one row per key — two rows with key
`id = 1` both reach the destination (the spec-modelled merge inserts both
unmatched rows on the first load; real BigQuery would abort the second
merge on the ambiguous match, likewise leaving both rows).  So the claim
is false for arbitrary batches. -/
theorem load_upsert_idempotent_counterexample :
    ((upsertTwice [] "t"
        [[("id", Value.vInt 1), ("v", Value.vStr "a")],
          [("id", Value.vInt 1), ("v", Value.vStr "b")]] ["id"] 3).filter
        (fun r => decide (pkProj ["id"] r = [Value.vInt 1]))).length = 2 := by
  rfl

/-- C7 (amended). For every batch whose rows share one duplicate-free
column layout and have pairwise distinct primary-key projections, loaded
into a destination whose rows share that layout and are key-unique (the
invariant upsert maintains), executing `load_upsert` twice with the same
batch and a non-empty primary-key set leaves the destination with exactly
one row per primary-key value of the batch, and that row equals the
batch's row — all non-key columns carry the second load's values. -/
theorem load_upsert_idempotent_amended (tb : BQTables) (table : String)
    (rows : List Row) (pks cols : List String) (pid : Nat)
    (_hpks : pks ≠ [])
    (hcols : cols.Nodup)
    (hS : ∀ s ∈ rows, rowKeys s = cols)
    (hT : ∀ r ∈ (dictGet tb table).getD [], rowKeys r = cols)
    (hSn : (rows.map (pkProj pks)).Nodup)
    (hTn : ((((dictGet tb table).getD []).map (pkProj pks))).Nodup) :
    ((upsertTwice tb table rows pks pid).map (pkProj pks)).Nodup ∧
    ∀ s ∈ rows, s ∈ upsertTwice tb table rows pks pid ∧
      ∀ r ∈ upsertTwice tb table rows pks pid,
        pkProj pks r = pkProj pks s → r = s := by
  have h1 : upsertTwice tb table rows pks pid
      = mergeRows pks (mergeRows pks ((dictGet tb table).getD []) rows)
          rows := by
    rw [upsertTwice, load_upsert_table_state, load_upsert_table_state]
  rw [h1]
  exact mergeRows_twice_spec pks cols ((dictGet tb table).getD []) rows
    hcols hT hS hTn hSn

/-- C7 witness: a two-row batch with distinct keys upserted twice into an
empty destination ends with key projections `[[1], [2]]` (one row per
key) and contains exactly the batch rows. -/
theorem load_upsert_idempotent_amended_witness :
    ((upsertTwice [] "t"
        [[("id", Value.vInt 1), ("v", Value.vStr "a")],
          [("id", Value.vInt 2), ("v", Value.vStr "b")]] ["id"] 3).map
        (pkProj ["id"])).Nodup ∧
    [("id", Value.vInt 1), ("v", Value.vStr "a")] ∈ upsertTwice [] "t"
        [[("id", Value.vInt 1), ("v", Value.vStr "a")],
          [("id", Value.vInt 2), ("v", Value.vStr "b")]] ["id"] 3 := by
  have h := load_upsert_idempotent_amended [] "t"
      [[("id", Value.vInt 1), ("v", Value.vStr "a")],
        [("id", Value.vInt 2), ("v", Value.vStr "b")]] ["id"] ["id", "v"] 3
      (by decide) (by decide) (by decide) (by decide) (by decide) (by decide)
  refine ⟨h.1, ?_⟩
  exact (h.2 [("id", Value.vInt 1), ("v", Value.vStr "a")]
    (by decide)).1

end EtlSpec
